import Mathlib

/-!
Verification of the bit-packed record codec in `CStyle.js` (cstyle-js).

Byte buffers (`Uint8Array`) are modelled as `List Nat`; machine arithmetic is
made explicit (`% 256` and friends).  Bits of a buffer are numbered from 0
starting at the most-significant bit of byte 0, as in the source.  Out-of-range
reads on a `Uint8Array` yield `undefined`, which bitwise operators coerce to 0,
and out-of-range writes are discarded; the model mirrors both via `List.getD`
and `List.set` (a no-op out of range).
-/

namespace CStyle

/-- Bit `k` of a byte buffer, numbered from 0 at the most-significant bit of
byte 0.  A position beyond the buffer reads as `false`. -/
def getBit (buf : List Nat) (k : Nat) : Bool :=
  Nat.testBit (buf.getD (k / 8) 0) (7 - k % 8)

/-- The `mod` helper from CStyle.js: `((n % m) + m) % m`, where JavaScript `%`
is the truncated remainder (`Int.tmod`). -/
def mod (n m : Int) : Int :=
  Int.tmod (Int.tmod n m + m) m

/-- Lower bound for the truncated remainder by 8. -/
lemma tmod_eight_lower (n : Int) : -8 < Int.tmod n 8 := by
  cases n with
  | ofNat m =>
    have h : Int.tmod (Int.ofNat m) 8 = ((m % 8 : Nat) : Int) := rfl
    rw [h]; omega
  | negSucc m =>
    have h : Int.tmod (Int.negSucc m) 8 = -(((m + 1) % 8 : Nat) : Int) := rfl
    have h2 : (m + 1) % 8 < 8 := Nat.mod_lt _ (by omega)
    rw [h]; omega

/-- The source's `mod` by 8 agrees with the mathematical (Euclidean) remainder. -/
lemma mod_eq_emod (n : Int) : mod n 8 = n % 8 := by
  have hlow : -8 < Int.tmod n 8 := tmod_eight_lower n
  have hup : Int.tmod n 8 < 8 := Int.tmod_lt_of_pos n (by norm_num)
  have hdef : Int.tmod n 8 = n - 8 * n.tdiv 8 := Int.tmod_def n 8
  unfold mod
  rw [Int.tmod_eq_emod (by omega) (by norm_num)]
  omega

/-- `mod(BYTE_LEN - x, BYTE_LEN) || 8` from the loop of `bufferExtract`:
the number of bits to the right of position `x` in its byte. -/
def dBits (x : Nat) : Nat :=
  if (mod (8 - (x : Int)) 8).toNat = 0 then 8 else (mod (8 - (x : Int)) 8).toNat

lemma dBits_eq (x : Nat) : dBits x = 8 - x % 8 := by
  unfold dBits
  rw [mod_eq_emod]
  split <;> omega

lemma dBits_pos (x : Nat) : 1 ≤ dBits x := by
  rw [dBits_eq]; omega

lemma dBits_le (x : Nat) : dBits x ≤ 8 := by
  rw [dBits_eq]; omega

/-- The chunk size taken by one iteration of the `bufferExtract` loop:
`Math.min(di, dj, endPtr - j)`. -/
def extractNumBits (i j endPtr : Nat) : Nat :=
  min (dBits i) (min (dBits j) (endPtr - j))

lemma extractNumBits_pos (i : Nat) {j endPtr : Nat} (h : j < endPtr) :
    1 ≤ extractNumBits i j endPtr := by
  unfold extractNumBits
  have h1 := dBits_pos i
  have h2 := dBits_pos j
  omega

/-- The `while` loop of `bufferExtract`.  State: the output array `extract`,
the write cursor `i` and the read cursor `j`.  With `di = dBits i`,
`dj = dBits j` and `numBits = extractNumBits i j endPtr`, one iteration is
`extract[i/8] |= shift(buffer[j/8] & (((1 << numBits) - 1) << (dj - numBits)))`
where the shift is left by `di - dj` when `di >= dj` and right by `dj - di`
otherwise. -/
def bufferExtractGo (buffer : List Nat) (endPtr : Nat) (fuel : Nat)
    (extract : List Nat) (i j : Nat) : List Nat :=
  match fuel with
  | 0 => extract
  | fuel + 1 =>
    if j < endPtr then
      bufferExtractGo buffer endPtr fuel
        (extract.set (i / 8) ((extract.getD (i / 8) 0) |||
          (if dBits j ≤ dBits i then
            ((buffer.getD (j / 8) 0) &&&
              (((1 <<< extractNumBits i j endPtr) - 1) <<<
                (dBits j - extractNumBits i j endPtr))) <<< (dBits i - dBits j)
           else
            ((buffer.getD (j / 8) 0) &&&
              (((1 <<< extractNumBits i j endPtr) - 1) <<<
                (dBits j - extractNumBits i j endPtr))) >>> (dBits j - dBits i))))
        (i + extractNumBits i j endPtr) (j + extractNumBits i j endPtr)
    else extract

/-- `bufferExtract(buffer, startPtr, size)` from CStyle.js.  The loop runs
until `j` reaches `endPtr = startPtr + size`; since every iteration advances
`j` by at least one bit, `size` iterations of fuel always suffice (shown by
`bufferExtractGo_spec` holding for every sufficient fuel). -/
def bufferExtract (buffer : List Nat) (startPtr size : Nat) : List Nat :=
  bufferExtractGo buffer (startPtr + size) size
    (List.replicate ((size + 7) / 8) 0)
    (mod (8 - (size : Int)) 8).toNat startPtr

/-- `BYTE_LEN - (j % BYTE_LEN)` from `insertBuffer`: bits still to be read in
the current byte of `b0`. -/
def insertD0 (j : Nat) : Nat := 8 - j % 8

/-- `BYTE_LEN - (i % BYTE_LEN)` from `insertBuffer`: bits still to be written
into the current byte of `b1`. -/
def insertD1 (i : Nat) : Nat := 8 - i % 8

/-- The chunk size taken by one iteration of the `insertBuffer` loop. -/
def insertNumBits (i j : Nat) : Nat := min (insertD0 j) (insertD1 i)

lemma insertNumBits_pos (i j : Nat) : 1 ≤ insertNumBits i j := by
  unfold insertNumBits insertD0 insertD1
  have h1 : j % 8 < 8 := Nat.mod_lt _ (by omega)
  have h2 : i % 8 < 8 := Nat.mod_lt _ (by omega)
  omega

/-- The `while` loop of `insertBuffer`: OR-merges the bits of `b0` from bit `j`
onwards into `b1` starting at bit `i`.  With `d0 = insertD0 j`,
`d1 = insertD1 i` and `numBits = insertNumBits i j`, one iteration is
`b1[i/8] |= shift(b0[j/8] & (((1 << d0) - 1) - ((1 << (d0 - numBits)) - 1)))`
where the shift is left by `d1 - d0` when `d1 - d0 >= 0` and right by
`d0 - d1` otherwise.  Returns the updated `b1`. -/
def insertBufferGo (b0 : List Nat) (fuel : Nat) (b1 : List Nat) (i j : Nat) :
    List Nat :=
  match fuel with
  | 0 => b1
  | fuel + 1 =>
    if j < b0.length * 8 then
      insertBufferGo b0 fuel
        (b1.set (i / 8) ((b1.getD (i / 8) 0) |||
          (if insertD0 j ≤ insertD1 i then
            ((b0.getD (j / 8) 0) &&&
              (((1 <<< insertD0 j) - 1) -
                ((1 <<< (insertD0 j - insertNumBits i j)) - 1))) <<<
              (insertD1 i - insertD0 j)
           else
            ((b0.getD (j / 8) 0) &&&
              (((1 <<< insertD0 j) - 1) -
                ((1 <<< (insertD0 j - insertNumBits i j)) - 1))) >>>
              (insertD0 j - insertD1 i))))
        (i + insertNumBits i j) (j + insertNumBits i j)
    else b1

/-- `insertBuffer(b0, b1, i, j = 0)` from CStyle.js.  The loop runs until `j`
reaches `8·|b0|`; every iteration advances `j` by at least one bit, so
`8·|b0|` iterations of fuel always suffice (shown by `insertBufferGo_spec`
holding for every sufficient fuel). -/
def insertBuffer (b0 b1 : List Nat) (i : Nat) (j : Nat := 0) : List Nat :=
  insertBufferGo b0 (b0.length * 8) b1 i j

/-- The member walk of `toObject` from CStyle.js.  A member is its name and
its type's bit size; the extracted bytes stand for the decoded value (the
per-type deserialize closures are irrelevant to the walk and its range
check).  The source checks `i + memberType.size >= buffer.length * BYTE_LEN`
and throws; on success it stores `deserialize(bufferExtract(buffer, i, size))`
and advances the cursor. -/
def toObjectGo (members : List (String × Nat)) (buffer : List Nat) (i : Nat) :
    Except String (List (String × List Nat)) :=
  match members with
  | [] => .ok []
  | (name, size) :: rest =>
    if i + size ≥ buffer.length * 8 then
      .error ("Could not parse struct, was outside buffer range (" ++
        toString (buffer.length * 8) ++ "). Reading " ++ name ++
        " from bit " ++ toString i)
    else
      match toObjectGo rest buffer (i + size) with
      | .error e => .error e
      | .ok o => .ok ((name, bufferExtract buffer i size) :: o)

/-- `toObject(struct, buffer, ptr)` from CStyle.js, the struct given by its
ordered member list.  `Struct.deserialize` is `toObject` at offset 0. -/
def toObject (members : List (String × Nat)) (buffer : List Nat) (ptr : Nat) :
    Except String (List (String × List Nat)) :=
  toObjectGo members buffer ptr

/-- ToUint8: storing a JavaScript number into a `Uint8Array` wraps it modulo
two to the eighth. -/
def toUint8 (x : Int) : Nat := (x % 256).toNat

/-- ToInt32: JavaScript `>>` and `<<` operate on 32-bit two's-complement
values. -/
def toInt32 (x : Int) : Int := (x + 2 ^ 31) % 2 ^ 32 - 2 ^ 31

/-- `cvar.int32.serialize`: four bytes `(int >> 24) % 256 … int % 256`, where
`>>` is the signed 32-bit arithmetic shift (floor division by a power of two
after ToInt32), `%` the truncated remainder, and storage wraps modulo 256. -/
def int32Serialize (int : Int) : List Nat :=
  [ toUint8 (Int.tmod ((toInt32 int).fdiv (2 ^ 24)) 256),
    toUint8 (Int.tmod ((toInt32 int).fdiv (2 ^ 16)) 256),
    toUint8 (Int.tmod ((toInt32 int).fdiv (2 ^ 8)) 256),
    toUint8 (Int.tmod int 256) ]

/-- `cvar.int32.deserialize`:
`bytes[3] + (bytes[2] << 8) + (bytes[1] << 16) + (bytes[0] << 24)`, with `<<`
the 32-bit signed shift. -/
def int32Deserialize (bytes : List Nat) : Int :=
  (bytes.getD 3 0 : Int) + toInt32 ((bytes.getD 2 0 : Int) * 2 ^ 8) +
    toInt32 ((bytes.getD 1 0 : Int) * 2 ^ 16) +
    toInt32 ((bytes.getD 0 0 : Int) * 2 ^ 24)

/-- One byte written by the `cvar.bigint.serialize` loop: `Number(bigint % m)`
stored into a `Uint8Array` (wrap modulo 256); BigInt `%` is the truncated
remainder. -/
def bigintByte (v : Int) : Nat := toUint8 (Int.tmod v 256)

/-- The `for` loop of `cvar.bigint.serialize`, filling indices `n-1 … 0`:
index `n-1` receives the byte of `v`, lower indices the bytes of successive
truncated quotients `v / 256` (BigInt division truncates toward zero). -/
def bigintSerializeGo (v : Int) : Nat → List Nat
  | 0 => []
  | n + 1 => bigintSerializeGo (v.tdiv 256) n ++ [bigintByte v]

/-- `cvar.bigint.serialize`: the eight-byte big-endian image. -/
def bigintSerialize (v : Int) : List Nat := bigintSerializeGo v 8

/-- `cvar.bigint.deserialize`: sums `bytes[i] << (8 * (len - 1 - i))` over the
whole byte list. -/
def bigintDeserialize : List Nat → Int
  | [] => 0
  | b :: rest => bigintDeserialize rest + (b : Int) * 2 ^ (8 * rest.length)

/-- The `CType` constructor guard from CStyle.js: `if(!name || !size) throw`.
A JavaScript string is falsy exactly when it is empty (an absent `name` is
likewise falsy) and a number is falsy exactly when it is zero, so the guard
rejects an empty name or a zero size and accepts everything else. -/
def ctypeNew (name : String) (size : Int) : Except String (String × Int) :=
  if name = "" ∨ size = 0 then
    .error ("Invalid name or size passed to CType constructor. Name: " ++ name)
  else
    .ok (name, size)

/-- An element type for `PtrArray`: bit size and the serialize / deserialize
closures over values of some type `α`. -/
structure ElemType (α : Type) where
  size : Nat
  serialize : α → List Nat
  deserialize : List Nat → α

/-- The `PtrArray` state: declared length, element type and backing buffer. -/
structure PtrArray (α : Type) where
  length : Nat
  type : ElemType α
  buffer : List Nat

/-- `PtrArray.prototype.setBuffer(buffer, pad = true)`.  `none` stands for
calling with no buffer argument (`b == undefined`); the `instanceof
Uint8Array` guard cannot fire in the model, where every buffer is a byte
list. -/
def PtrArray.setBuffer {α : Type} (arr : PtrArray α) (buffer : Option (List Nat))
    (pad : Bool := true) : Except String (PtrArray α) :=
  match buffer with
  | none =>
    .ok { arr with buffer := List.replicate ((arr.length * arr.type.size + 7) / 8) 0 }
  | some b =>
    if pad then
      if (arr.length * arr.type.size + 7) / 8 < b.length then
        .ok { arr with buffer := b.take ((arr.length * arr.type.size + 7) / 8) }
      else if b.length < (arr.length * arr.type.size + 7) / 8 then
        .ok { arr with buffer :=
          b ++ List.replicate ((arr.length * arr.type.size + 7) / 8 - b.length) 0 }
      else
        .ok { arr with buffer := b }
    else if b.length < (arr.length * arr.type.size + 7) / 8 then
      .error ("Given buffer was not of expected length. Expected length " ++
        toString ((arr.length * arr.type.size + 7) / 8) ++ ", got " ++
        toString b.length)
    else
      .ok { arr with buffer := b }

/-- `PtrArray.prototype.get(i)` for a scalar element type (for a `Struct`
element the body recurses into `toObject` instead; the bounds guard
`if(i < 0 || !(i < this.length)) return` precedes that branch). -/
def PtrArray.get {α : Type} (arr : PtrArray α) (i : Int) : Option α :=
  if i < 0 ∨ ¬(i < (arr.length : Int)) then none
  else some (arr.type.deserialize
    (bufferExtract arr.buffer (i.toNat * arr.type.size) arr.type.size))

/-- `PtrArray.prototype.set(i, item)`: after the same bounds guard, serializes
`item` and inserts it at the element's bit offset, reading the serialized
bytes from bit `mod(-size, 8)` when the element is narrower than a byte. -/
def PtrArray.set {α : Type} (arr : PtrArray α) (i : Int) (item : α) : PtrArray α :=
  if i < 0 ∨ ¬(i < (arr.length : Int)) then arr
  else { arr with
    buffer := insertBuffer (arr.type.serialize item) arr.buffer
      (i.toNat * arr.type.size)
      (if arr.type.size < 8 then (mod (-(arr.type.size : Int)) 8).toNat else 0) }

/-! Low-level lemmas about `getBit`. -/

lemma getBit_ge (buf : List Nat) (pos : Nat) (h : buf.length * 8 ≤ pos) :
    getBit buf pos = false := by
  unfold getBit
  rw [List.getD_eq_getElem?_getD, List.getElem?_eq_none (by omega)]
  simp

lemma getBit_replicate_zero (n pos : Nat) : getBit (List.replicate n 0) pos = false := by
  unfold getBit
  rcases lt_or_ge (pos / 8) n with h | h
  · rw [List.getD_eq_getElem?_getD, List.getElem?_replicate_of_lt h]
    simp
  · rw [List.getD_eq_getElem?_getD, List.getElem?_eq_none (by simpa using h)]
    simp

lemma getBit_set (buf : List Nat) (idx v pos : Nat) :
    getBit (buf.set idx v) pos =
      if pos / 8 = idx ∧ idx < buf.length then v.testBit (7 - pos % 8)
      else getBit buf pos := by
  unfold getBit
  by_cases h1 : pos / 8 = idx
  · by_cases h2 : idx < buf.length
    · subst h1
      rw [List.getD_eq_getElem?_getD, List.getElem?_set_self h2]
      simp [h2]
    · rw [List.set_eq_of_length_le (by omega)]
      simp [h1, h2]
  · rw [List.getD_eq_getElem?_getD, List.getElem?_set_ne (by omega),
      ← List.getD_eq_getElem?_getD]
    simp [h1]

/-- Bits of the mask `((1 << nb) - 1) << (dj - nb)`. -/
lemma mask_testBit (dj nb : Nat) (u : Nat) :
    ((((1 <<< nb) - 1) <<< (dj - nb)) : Nat).testBit u
      = decide (dj - nb ≤ u ∧ u < dj - nb + nb) := by
  rw [Nat.testBit_shiftLeft, Nat.shiftLeft_eq, one_mul, Nat.testBit_two_pow_sub_one,
    Bool.eq_iff_iff]
  simp only [Bool.and_eq_true, decide_eq_true_eq, ge_iff_le]
  omega

/-- The insert-loop mask `((1 << d0) - 1) - ((1 << (d0 - nb)) - 1)` is the
same mask in shifted form. -/
lemma insertMask_eq (d0 nb : Nat) (h : nb ≤ d0) :
    (((1 <<< d0) - 1) - ((1 <<< (d0 - nb)) - 1) : Nat)
      = ((1 <<< nb) - 1) <<< (d0 - nb) := by
  simp only [Nat.shiftLeft_eq, one_mul]
  have h1 : (2 : Nat) ^ d0 = 2 ^ (d0 - nb) * 2 ^ nb := by
    rw [← pow_add]
    congr 1
    omega
  have h2 : (1 : Nat) ≤ 2 ^ (d0 - nb) := Nat.one_le_two_pow
  have h3 : (1 : Nat) ≤ 2 ^ nb := Nat.one_le_two_pow
  have h4 : 2 ^ (d0 - nb) ≤ 2 ^ (d0 - nb) * 2 ^ nb :=
    Nat.le_mul_of_pos_right _ (by omega)
  rw [h1, Nat.sub_mul, one_mul, Nat.mul_comm (2 ^ nb) (2 ^ (d0 - nb))]
  omega

/-- One loop iteration moves the `nb`-bit chunk of the source byte `src` that
sits `dj` bits from the byte's low end to the position `di` bits from the low
end, zeroing everything else. -/
lemma chunk_testBit (src di dj nb : Nat) (h2 : nb ≤ di) (h3 : nb ≤ dj) (t : Nat) :
    (if dj ≤ di then (src &&& (((1 <<< nb) - 1) <<< (dj - nb))) <<< (di - dj)
     else (src &&& (((1 <<< nb) - 1) <<< (dj - nb))) >>> (dj - di)).testBit t
    = (decide (di - nb ≤ t ∧ t < di) && src.testBit (t + dj - di)) := by
  split
  case isTrue hc =>
    rw [Nat.testBit_shiftLeft, Nat.testBit_and, mask_testBit, Bool.eq_iff_iff]
    simp only [Bool.and_eq_true, decide_eq_true_eq, ge_iff_le]
    constructor
    · rintro ⟨hge, hsb, hcond⟩
      have he : t - (di - dj) = t + dj - di := by omega
      rw [he] at hsb
      exact ⟨⟨by omega, by omega⟩, hsb⟩
    · rintro ⟨hcond, hsb⟩
      have hge : di - dj ≤ t := by omega
      have he : t - (di - dj) = t + dj - di := by omega
      rw [he]
      exact ⟨hge, hsb, by omega⟩
  case isFalse hc =>
    rw [Nat.testBit_shiftRight, Nat.testBit_and, mask_testBit, Bool.eq_iff_iff]
    simp only [Bool.and_eq_true, decide_eq_true_eq, ge_iff_le]
    constructor
    · rintro ⟨hsb, hcond⟩
      have he : dj - di + t = t + dj - di := by omega
      rw [he] at hsb
      exact ⟨⟨by omega, by omega⟩, hsb⟩
    · rintro ⟨hcond, hsb⟩
      have he : dj - di + t = t + dj - di := by omega
      rw [he]
      exact ⟨hsb, by omega⟩

lemma extractNumBits_le_di (i j endPtr : Nat) : extractNumBits i j endPtr ≤ dBits i :=
  Nat.min_le_left _ _

lemma extractNumBits_le_dj (i j endPtr : Nat) : extractNumBits i j endPtr ≤ dBits j := by
  unfold extractNumBits
  omega

lemma extractNumBits_le_rem (i j endPtr : Nat) : extractNumBits i j endPtr ≤ endPtr - j := by
  unfold extractNumBits
  omega

/-- Loop invariant of `bufferExtractGo`: provided the still-to-be-written bit
range of `extract` is clear and lies inside `extract`, the loop copies bits
`[j, endPtr)` of `buffer` to positions `[i, i + (endPtr - j))` of the output,
leaves every other bit unchanged and preserves the length.  `n` is fuel
bounding the remaining run. -/
lemma bufferExtractGo_spec (buffer : List Nat) (endPtr : Nat) :
    ∀ (fuel : Nat) (extract : List Nat) (i j : Nat), endPtr - j ≤ fuel →
      (∀ k, k < endPtr - j → getBit extract (i + k) = false) →
      i + (endPtr - j) ≤ 8 * extract.length →
      (bufferExtractGo buffer endPtr fuel extract i j).length = extract.length ∧
      (∀ k, k < endPtr - j →
        getBit (bufferExtractGo buffer endPtr fuel extract i j) (i + k) =
          getBit buffer (j + k)) ∧
      (∀ pos, pos < i ∨ i + (endPtr - j) ≤ pos →
        getBit (bufferExtractGo buffer endPtr fuel extract i j) pos =
          getBit extract pos) := by
  intro fuel
  induction fuel with
  | zero =>
    intro extract i j hfuel hclear hbound
    exact ⟨rfl, fun k hk => absurd hk (by omega), fun pos _ => rfl⟩
  | succ m ih =>
    intro extract i j hfuel hclear hbound
    by_cases hj : j < endPtr
    case neg =>
      rw [bufferExtractGo, if_neg hj]
      exact ⟨rfl, fun k hk => absurd hk (by omega), fun pos _ => rfl⟩
    case pos =>
      have hdi : dBits i = 8 - i % 8 := dBits_eq i
      have hdj : dBits j = 8 - j % 8 := dBits_eq j
      have hnb1 : 1 ≤ extractNumBits i j endPtr := extractNumBits_pos i hj
      have hnbi : extractNumBits i j endPtr ≤ dBits i := extractNumBits_le_di i j endPtr
      have hnbj : extractNumBits i j endPtr ≤ dBits j := extractNumBits_le_dj i j endPtr
      have hnbr : extractNumBits i j endPtr ≤ endPtr - j := extractNumBits_le_rem i j endPtr
      set nb := extractNumBits i j endPtr with hnb
      set src := buffer.getD (j / 8) 0 with hsrc
      set e' := (if dBits j ≤ dBits i then
          (src &&& (((1 <<< nb) - 1) <<< (dBits j - nb))) <<< (dBits i - dBits j)
         else
          (src &&& (((1 <<< nb) - 1) <<< (dBits j - nb))) >>> (dBits j - dBits i))
        with he'
      have hchunk : ∀ t, e'.testBit t =
          (decide (dBits i - nb ≤ t ∧ t < dBits i) && src.testBit (t + dBits j - dBits i)) :=
        chunk_testBit src (dBits i) (dBits j) nb hnbi hnbj
      set extract' := extract.set (i / 8) ((extract.getD (i / 8) 0) ||| e') with hext'
      have hidiv : i / 8 < extract.length := by omega
      -- the step leaves bits outside [i, i + nb) unchanged
      have hstep_out : ∀ pos, pos < i ∨ i + nb ≤ pos →
          getBit extract' pos = getBit extract pos := by
        intro pos hpos
        rw [hext', getBit_set]
        by_cases hb : pos / 8 = i / 8 ∧ i / 8 < extract.length
        · rw [if_pos hb, Nat.testBit_or, hchunk]
          have hcond : ¬(dBits i - nb ≤ 7 - pos % 8 ∧ 7 - pos % 8 < dBits i) := by
            rcases hb with ⟨hb1, _⟩
            omega
          rw [decide_eq_false hcond]
          simp only [Bool.false_and, Bool.or_false]
          rcases hb with ⟨hb1, _⟩
          unfold getBit
          rw [hb1]
        · rw [if_neg hb]
      -- the step writes bits [j, j + nb) of the buffer into [i, i + nb)
      have hstep_in : ∀ k, k < nb →
          getBit extract' (i + k) = getBit buffer (j + k) := by
        intro k hk
        have hb1 : (i + k) / 8 = i / 8 := by omega
        have hb2 : (i + k) % 8 = i % 8 + k := by omega
        rw [hext', getBit_set, if_pos ⟨hb1, hidiv⟩, Nat.testBit_or, hchunk]
        have hcond : dBits i - nb ≤ 7 - (i + k) % 8 ∧ 7 - (i + k) % 8 < dBits i := by
          omega
        rw [decide_eq_true hcond]
        have hclear' : getBit extract (i + k) = false := hclear k (by omega)
        have hclear'' : (extract.getD (i / 8) 0).testBit (7 - (i + k) % 8) = false := by
          unfold getBit at hclear'
          rw [hb1] at hclear'
          exact hclear'
        rw [hclear'']
        simp only [Bool.false_or, Bool.true_and]
        have hidx : 7 - (i + k) % 8 + dBits j - dBits i = 7 - j % 8 - k := by
          omega
        rw [hidx]
        have hc1 : (j + k) / 8 = j / 8 := by omega
        have hc2 : (j + k) % 8 = j % 8 + k := by omega
        unfold getBit
        rw [hc1, hc2, ← hsrc]
        congr 1
        omega
      -- apply the induction hypothesis to the next state
      have hlen' : extract'.length = extract.length := by
        rw [hext', List.length_set]
      obtain ⟨ihL, ihG1, ihG2⟩ := ih extract' (i + nb) (j + nb)
        (by omega)
        (by
          intro k hk
          rw [show i + nb + k = i + (nb + k) by omega]
          rw [hstep_out (i + (nb + k)) (by omega)]
          exact hclear (nb + k) (by omega))
        (by rw [hlen']; omega)
      rw [bufferExtractGo, if_pos hj]
      refine ⟨by rw [← hext', ihL, hlen'], ?_, ?_⟩
      · intro k hk
        by_cases hknb : k < nb
        · rw [← hext']
          rw [show i + k = i + k by rfl]
          have := ihG2 (i + k) (Or.inl (by omega))
          rw [this, hstep_in k hknb]
        · have := ihG1 (k - nb) (by omega)
          rw [show i + nb + (k - nb) = i + k by omega,
            show j + nb + (k - nb) = j + k by omega] at this
          rw [← hext', this]
      · intro pos hpos
        rw [← hext']
        have := ihG2 pos (by omega)
        rw [this, hstep_out pos (by omega)]

lemma extractInit_eq (size : Nat) :
    (mod (8 - (size : Int)) 8).toNat = (8 - size % 8) % 8 := by
  rw [mod_eq_emod]
  omega

/-- Specification of `bufferExtract`: `ceil(size/8)` bytes, the `size` source
bits right-justified (starting `(8 - size % 8) % 8` bits into the output),
the leading bits clear. -/
lemma bufferExtract_spec (buffer : List Nat) (startPtr size : Nat) :
    (bufferExtract buffer startPtr size).length = (size + 7) / 8 ∧
    (∀ k, k < size →
      getBit (bufferExtract buffer startPtr size) ((8 - size % 8) % 8 + k) =
        getBit buffer (startPtr + k)) ∧
    (∀ pos, pos < (8 - size % 8) % 8 →
      getBit (bufferExtract buffer startPtr size) pos = false) := by
  unfold bufferExtract
  rw [extractInit_eq]
  obtain ⟨hL, hG1, hG2⟩ := bufferExtractGo_spec buffer (startPtr + size)
    size
    (List.replicate ((size + 7) / 8) 0) ((8 - size % 8) % 8) startPtr
    (by omega)
    (fun k _ => getBit_replicate_zero _ _)
    (by rw [List.length_replicate]; omega)
  refine ⟨by rw [hL, List.length_replicate], ?_, ?_⟩
  · intro k hk
    exact hG1 k (by omega)
  · intro pos hpos
    rw [hG2 pos (Or.inl hpos), getBit_replicate_zero]

lemma insertNumBits_le_d0 (i j : Nat) : insertNumBits i j ≤ insertD0 j :=
  Nat.min_le_left _ _

lemma insertNumBits_le_d1 (i j : Nat) : insertNumBits i j ≤ insertD1 i :=
  Nat.min_le_right _ _

/-- Loop invariant of `insertBufferGo`: the loop OR-merges bits `[j, 8·|b0|)`
of `b0` into `b1` at positions `[i, …)`; a write whose destination byte lies
past the end of `b1` is dropped, every position outside the written range is
unchanged, and the length is preserved.  `n` is fuel bounding the remaining
run. -/
lemma insertBufferGo_spec (b0 : List Nat) :
    ∀ (fuel : Nat) (b1 : List Nat) (i j : Nat), b0.length * 8 - j ≤ fuel →
      (insertBufferGo b0 fuel b1 i j).length = b1.length ∧
      (∀ k, j + k < b0.length * 8 → i + k < 8 * b1.length →
        getBit (insertBufferGo b0 fuel b1 i j) (i + k) =
          (getBit b1 (i + k) || getBit b0 (j + k))) ∧
      (∀ pos, pos < i ∨ i + (b0.length * 8 - j) ≤ pos →
        getBit (insertBufferGo b0 fuel b1 i j) pos = getBit b1 pos) := by
  intro fuel
  induction fuel with
  | zero =>
    intro b1 i j hfuel
    exact ⟨rfl, fun k hk _ => absurd hk (by omega), fun pos _ => rfl⟩
  | succ m ih =>
    intro b1 i j hfuel
    by_cases hj : j < b0.length * 8
    case neg =>
      rw [insertBufferGo, if_neg hj]
      exact ⟨rfl, fun k hk _ => absurd hk (by omega), fun pos _ => rfl⟩
    case pos =>
      have hd0 : insertD0 j = 8 - j % 8 := rfl
      have hd1 : insertD1 i = 8 - i % 8 := rfl
      have hnb1 : 1 ≤ insertNumBits i j := insertNumBits_pos i j
      have hnbi : insertNumBits i j ≤ insertD1 i := insertNumBits_le_d1 i j
      have hnbj : insertNumBits i j ≤ insertD0 j := insertNumBits_le_d0 i j
      have hnbr : insertNumBits i j ≤ b0.length * 8 - j := by
        unfold insertNumBits insertD0 at *
        omega
      set nb := insertNumBits i j with hnb
      set src := b0.getD (j / 8) 0 with hsrc
      rw [insertBufferGo, if_pos hj, insertMask_eq _ _ hnbj]
      set e' := (if insertD0 j ≤ insertD1 i then
          (src &&& (((1 <<< nb) - 1) <<< (insertD0 j - nb))) <<<
            (insertD1 i - insertD0 j)
         else
          (src &&& (((1 <<< nb) - 1) <<< (insertD0 j - nb))) >>>
            (insertD0 j - insertD1 i))
        with he'
      have hchunk : ∀ t, e'.testBit t =
          (decide (insertD1 i - nb ≤ t ∧ t < insertD1 i) &&
            src.testBit (t + insertD0 j - insertD1 i)) :=
        chunk_testBit src (insertD1 i) (insertD0 j) nb hnbi hnbj
      set b1' := b1.set (i / 8) ((b1.getD (i / 8) 0) ||| e') with hb1'
      have hstep_out : ∀ pos, pos < i ∨ i + nb ≤ pos →
          getBit b1' pos = getBit b1 pos := by
        intro pos hpos
        rw [hb1', getBit_set]
        by_cases hb : pos / 8 = i / 8 ∧ i / 8 < b1.length
        · rw [if_pos hb, Nat.testBit_or, hchunk]
          have hcond : ¬(insertD1 i - nb ≤ 7 - pos % 8 ∧ 7 - pos % 8 < insertD1 i) := by
            rcases hb with ⟨hb1, _⟩
            rw [hd1]
            omega
          rw [decide_eq_false hcond]
          simp only [Bool.false_and, Bool.or_false]
          rcases hb with ⟨hbq, _⟩
          unfold getBit
          rw [hbq]
        · rw [if_neg hb]
      have hstep_in : ∀ k, k < nb → i + k < 8 * b1.length →
          getBit b1' (i + k) = (getBit b1 (i + k) || getBit b0 (j + k)) := by
        intro k hk hin
        have hb1q : (i + k) / 8 = i / 8 := by
          rw [hd1] at hnbi
          omega
        have hb2q : (i + k) % 8 = i % 8 + k := by
          rw [hd1] at hnbi
          omega
        have hidiv : i / 8 < b1.length := by
          rw [hd1] at hnbi
          omega
        rw [hb1', getBit_set, if_pos ⟨hb1q, hidiv⟩, Nat.testBit_or, hchunk]
        have hcond : insertD1 i - nb ≤ 7 - (i + k) % 8 ∧ 7 - (i + k) % 8 < insertD1 i := by
          rw [hd1]
          rw [hd1] at hnbi
          omega
        rw [decide_eq_true hcond]
        have hidx : 7 - (i + k) % 8 + insertD0 j - insertD1 i = 7 - j % 8 - k := by
          rw [hd0, hd1]
          rw [hd1] at hnbi
          rw [hd0] at hnbj
          omega
        rw [hidx]
        have hc1 : (j + k) / 8 = j / 8 := by
          rw [hd0] at hnbj
          omega
        have hc2 : (j + k) % 8 = j % 8 + k := by
          rw [hd0] at hnbj
          omega
        have hsrcbit : getBit b0 (j + k) = src.testBit (7 - j % 8 - k) := by
          unfold getBit
          rw [hc1, hc2, ← hsrc]
          congr 1
          omega
        rw [hsrcbit]
        congr 1
        unfold getBit
        rw [hb1q]
      have hlen' : b1'.length = b1.length := by
        rw [hb1', List.length_set]
      obtain ⟨ihL, ihG1, ihG2⟩ := ih b1' (i + nb) (j + nb) (by omega)
      refine ⟨by rw [ihL, hlen'], ?_, ?_⟩
      · intro k hk hin
        by_cases hknb : k < nb
        · have := ihG2 (i + k) (Or.inl (by omega))
          rw [this, hstep_in k hknb hin]
        · have := ihG1 (k - nb)
            (by rw [show j + nb + (k - nb) = j + k by omega]; exact hk)
            (by rw [show i + nb + (k - nb) = i + k by omega, hlen']; exact hin)
          rw [show i + nb + (k - nb) = i + k by omega,
            show j + nb + (k - nb) = j + k by omega] at this
          rw [this, hstep_out (i + k) (Or.inr (by omega))]
      · intro pos hpos
        have := ihG2 pos (by omega)
        rw [this, hstep_out pos (by omega)]

/-- C3: for every buffer `B`, bit offset `p`, and bit count `w ≥ 1` with
`p + w ≤ 8·|B|`, `bufferExtract B p w` returns exactly `ceil(w/8)` bytes whose
bits are the `w` bits of `B` starting at bit `p` (bits numbered from the
most-significant bit of byte 0), right-justified: the value occupies the
low-order end of the returned bytes, and the leading `(-w) mod 8` bits of the
first returned byte are zero. -/
theorem C3_bufferExtract_correct (B : List Nat) (p w : Nat) (hw : 1 ≤ w)
    (hbound : p + w ≤ 8 * B.length) :
    (bufferExtract B p w).length = (w + 7) / 8 ∧
    (∀ k, k < w →
      getBit (bufferExtract B p w) ((8 - w % 8) % 8 + k) = getBit B (p + k)) ∧
    (∀ pos, pos < (8 - w % 8) % 8 → getBit (bufferExtract B p w) pos = false) :=
  bufferExtract_spec B p w

/-- Witness for C3 at `B = [171, 205]`, `p = 3`, `w = 7`. -/
theorem C3_bufferExtract_correct_witness :
    1 ≤ 7 ∧ 3 + 7 ≤ 8 * ([171, 205] : List Nat).length ∧
    ((bufferExtract [171, 205] 3 7).length = (7 + 7) / 8 ∧
     (∀ k, k < 7 →
       getBit (bufferExtract [171, 205] 3 7) ((8 - 7 % 8) % 8 + k) =
         getBit [171, 205] (3 + k)) ∧
     (∀ pos, pos < (8 - 7 % 8) % 8 →
       getBit (bufferExtract [171, 205] 3 7) pos = false)) :=
  ⟨by decide, by decide,
    C3_bufferExtract_correct [171, 205] 3 7 (by decide) (by decide)⟩

/-- C9: both bit primitives are total even when the requested range extends
past the end of a buffer: `bufferExtract` reads every bit positioned past the
source buffer's end as zero, and `insertBuffer` discards bits destined past
the destination buffer's end (the output keeps the destination's length, and
every position past it reads as zero); neither has an error path. -/
theorem C9_bit_primitives_total (B : List Nat) (p w : Nat)
    (b0 b1 : List Nat) (i j : Nat) :
    ((bufferExtract B p w).length = (w + 7) / 8 ∧
     (∀ k, k < w → 8 * B.length ≤ p + k →
       getBit (bufferExtract B p w) ((8 - w % 8) % 8 + k) = false)) ∧
    ((insertBuffer b0 b1 i j).length = b1.length ∧
     (∀ pos, 8 * b1.length ≤ pos → getBit (insertBuffer b0 b1 i j) pos = false)) := by
  obtain ⟨hL, hG1, _⟩ := bufferExtract_spec B p w
  obtain ⟨hL', _, _⟩ := insertBufferGo_spec b0 (b0.length * 8) b1 i j (by omega)
  refine ⟨⟨hL, ?_⟩, ⟨hL', ?_⟩⟩
  · intro k hk hout
    rw [hG1 k hk]
    exact getBit_ge B (p + k) (by omega)
  · intro pos hpos
    unfold insertBuffer
    refine getBit_ge _ pos ?_
    rw [hL']
    omega

/-- Witness for C9 at `B = [171]`, `p = 0`, `w = 16` (bits 8…15 lie past the
source) and `b0 = [255]`, `b1 = [7]`, `i = 6`, `j = 0` (the last two source
bits land past the destination). -/
theorem C9_bit_primitives_total_witness :
    (16 : Nat) < 16 + 1 ∧ 8 * ([171] : List Nat).length ≤ 0 + 8 ∧
    getBit (bufferExtract [171] 0 16) ((8 - 16 % 8) % 8 + 8) = false ∧
    (insertBuffer [255] [7] 6 0).length = ([7] : List Nat).length ∧
    getBit (insertBuffer [255] [7] 6 0) 8 = false := by
  obtain ⟨⟨_, h1⟩, ⟨h2, h3⟩⟩ := C9_bit_primitives_total [171] 0 16 [255] [7] 6 0
  exact ⟨by decide, by decide, h1 8 (by decide) (by decide), h2, h3 8 (by decide)⟩

/-- C10: the loops of `bufferExtract` and `insertBuffer` terminate: while the
loop condition holds, the per-byte remaining-bit counts (`di`, `dj` computed
by `mod(8 - x, 8) || 8` in `bufferExtract`; `d0`, `d1` computed by
`8 - x % 8` in `insertBuffer`) are each between 1 and 8, so `numBits ≥ 1` and
the cursors strictly increase toward the loop bound each step. -/
theorem C10_loops_terminate (i j endPtr : Nat) (b0 : List Nat)
    (h1 : j < endPtr) (h2 : j < b0.length * 8) :
    (1 ≤ dBits i ∧ dBits i ≤ 8) ∧ (1 ≤ dBits j ∧ dBits j ≤ 8) ∧
    (1 ≤ extractNumBits i j endPtr ∧
      j < j + extractNumBits i j endPtr ∧
      j + extractNumBits i j endPtr ≤ endPtr) ∧
    ((1 ≤ insertD0 j ∧ insertD0 j ≤ 8) ∧ (1 ≤ insertD1 i ∧ insertD1 i ≤ 8) ∧
      1 ≤ insertNumBits i j ∧
      j < j + insertNumBits i j ∧ j + insertNumBits i j ≤ b0.length * 8) := by
  have hdi := dBits_eq i
  have hdj := dBits_eq j
  have hnb1 := extractNumBits_pos i h1
  have hnbr := extractNumBits_le_rem i j endPtr
  have hind0 : insertD0 j = 8 - j % 8 := rfl
  have hind1 : insertD1 i = 8 - i % 8 := rfl
  have hinb : insertNumBits i j = min (insertD0 j) (insertD1 i) := rfl
  refine ⟨⟨by omega, by omega⟩, ⟨by omega, by omega⟩,
    ⟨hnb1, by omega, by omega⟩,
    ⟨⟨by omega, by omega⟩, ⟨by omega, by omega⟩, insertNumBits_pos i j, ?_, ?_⟩⟩
  · have := insertNumBits_pos i j
    omega
  · have := insertNumBits_le_d0 i j
    omega

/-- Witness for C10 at `i = 5`, `j = 3`, `endPtr = 10`, `b0 = [0]`. -/
theorem C10_loops_terminate_witness :
    (3 : Nat) < 10 ∧ (3 : Nat) < ([0] : List Nat).length * 8 ∧
    (1 ≤ extractNumBits 5 3 10 ∧ 3 < 3 + extractNumBits 5 3 10 ∧
      3 + extractNumBits 5 3 10 ≤ 10) ∧
    (1 ≤ insertNumBits 5 3 ∧ 3 < 3 + insertNumBits 5 3 ∧
      3 + insertNumBits 5 3 ≤ ([0] : List Nat).length * 8) := by
  obtain ⟨_, _, h3, ⟨_, _, h6, h7, h8⟩⟩ :=
    C10_loops_terminate 5 3 10 [0] (by decide) (by decide)
  exact ⟨by decide, by decide, h3, h6, h7, h8⟩

/-- C2 as stated is false: with the default source offset 0, the
right-justified extract of a sub-byte width is re-inserted shifted.  At
`B = [240]` (bits 1111 0000), `p = 0`, `w = 4`, the round trip writes `[15]`,
whose bits `[0, 4)` are all zero while bits `[0, 4)` of `B` are all one. -/
theorem C2_roundTrip_counterexample :
    insertBuffer (bufferExtract [240] 0 4) [0] 0 0 = [15] ∧
    getBit [240] 0 = true ∧
    getBit (insertBuffer (bufferExtract [240] 0 4) [0] 0 0) 0 = false := by
  exact ⟨by decide, by decide, by decide⟩

/-- C2 (amended): the round trip holds when `insertBuffer` is told to start
reading the extracted bytes at bit `mod(-w, 8)` — exactly the source offset
the library itself passes (`Struct.serialize`, `PtrArray.set`) — instead of
the default 0: for every buffer `B`, offset `p ≥ 0`, width `w ≥ 1` with
`p + w ≤ 8·|B|`, inserting `bufferExtract B p w` into an all-zero buffer of
the same byte length at `p` with source offset `mod(8 - w, 8)` makes bits
`[p, p + w)` equal to those of `B` and leaves every other bit zero. -/
theorem C2_roundTrip_amended (B : List Nat) (p w : Nat) (hw : 1 ≤ w)
    (hbound : p + w ≤ 8 * B.length) :
    (∀ k, k < w →
      getBit (insertBuffer (bufferExtract B p w) (List.replicate B.length 0) p
        (mod (8 - (w : Int)) 8).toNat) (p + k) = getBit B (p + k)) ∧
    (∀ pos, pos < p ∨ p + w ≤ pos →
      getBit (insertBuffer (bufferExtract B p w) (List.replicate B.length 0) p
        (mod (8 - (w : Int)) 8).toNat) pos = false) := by
  obtain ⟨hEL, hEG1, _⟩ := bufferExtract_spec B p w
  rw [extractInit_eq]
  unfold insertBuffer
  obtain ⟨_, hIG1, hIG2⟩ := insertBufferGo_spec (bufferExtract B p w)
    ((bufferExtract B p w).length * 8) (List.replicate B.length 0) p
    ((8 - w % 8) % 8) (by omega)
  have hlenE : (bufferExtract B p w).length * 8 = (8 - w % 8) % 8 + w := by
    rw [hEL]
    omega
  constructor
  · intro k hk
    have h1 : (8 - w % 8) % 8 + k < (bufferExtract B p w).length * 8 := by omega
    have h2 : p + k < 8 * (List.replicate B.length 0).length := by
      rw [List.length_replicate]
      omega
    rw [hIG1 k h1 h2, hEG1 k hk, getBit_replicate_zero]
    simp
  · intro pos hpos
    have : pos < p ∨ p + ((bufferExtract B p w).length * 8 - (8 - w % 8) % 8) ≤ pos := by
      omega
    rw [hIG2 pos this, getBit_replicate_zero]

/-- Witness for C2 (amended) at `B = [171, 205]`, `p = 3`, `w = 7`. -/
theorem C2_roundTrip_amended_witness :
    1 ≤ 7 ∧ 3 + 7 ≤ 8 * ([171, 205] : List Nat).length ∧
    ((∀ k, k < 7 →
      getBit (insertBuffer (bufferExtract [171, 205] 3 7)
        (List.replicate ([171, 205] : List Nat).length 0) 3
        (mod (8 - (7 : Int)) 8).toNat) (3 + k) = getBit [171, 205] (3 + k)) ∧
    (∀ pos, pos < 3 ∨ 3 + 7 ≤ pos →
      getBit (insertBuffer (bufferExtract [171, 205] 3 7)
        (List.replicate ([171, 205] : List Nat).length 0) 3
        (mod (8 - (7 : Int)) 8).toNat) pos = false)) :=
  ⟨by decide, by decide,
    C2_roundTrip_amended [171, 205] 3 7 (by decide) (by decide)⟩

/-- Storing `x % 256` (truncated remainder) into a byte recovers the
mathematical remainder of `x` modulo 256. -/
lemma toUint8_tmod (x : Int) : ((toUint8 (Int.tmod x 256)) : Int) = x % 256 := by
  unfold toUint8
  have hdef : Int.tmod x 256 = x - 256 * x.tdiv 256 := Int.tmod_def x 256
  omega

/-- C1: the range check of `toObject` uses `>=`, so a struct whose single
8-bit field ends exactly at the buffer's last bit (`0 + 8 = 8·1`) raises the
range error even though its end position is not strictly greater than the
buffer's bit length — against the claim (and the spec's round-trip of
`Struct.serialize`/`deserialize`, which produces exactly such buffers). -/
theorem C1_range_check_bug :
    toObject [("a", 8)] [0] 0 = Except.error
      "Could not parse struct, was outside buffer range (8). Reading a from bit 0" ∧
    ¬(0 + 8 > 8 * ([0] : List Nat).length) :=
  ⟨rfl, by decide⟩

/-- C4 is false as stated: the negative value `-1` (representable as a signed
64-bit integer) does not round-trip — BigInt division/remainder truncate
toward zero, so `serialize(-1)` is `[0,…,0,255]`, which deserializes to
`255`. -/
theorem C4_bigint_counterexample :
    bigintSerialize (-1) = [0, 0, 0, 0, 0, 0, 0, 255] ∧
    bigintDeserialize (bigintSerialize (-1)) = 255 ∧
    ((255 : Int) = -1 → False) :=
  ⟨by decide, by decide, by decide⟩

lemma bigintDeserialize_cons (x : Nat) (l : List Nat) :
    bigintDeserialize (x :: l) =
      bigintDeserialize l + (x : Int) * 2 ^ (8 * l.length) := rfl

lemma bigintDeserialize_append (l : List Nat) (b : Nat) :
    bigintDeserialize (l ++ [b]) = bigintDeserialize l * 256 + b := by
  induction l with
  | nil => simp [bigintDeserialize]
  | cons x rest ih =>
    have hl : (rest ++ [b]).length = rest.length + 1 := by simp
    have hp : (2 : Int) ^ (8 * (rest.length + 1)) = 2 ^ (8 * rest.length) * 256 := by
      rw [show 8 * (rest.length + 1) = 8 * rest.length + 8 by ring, pow_add]
      norm_num
    rw [List.cons_append, bigintDeserialize_cons, bigintDeserialize_cons, ih, hl, hp]
    ring

lemma bigintSerializeGo_roundTrip :
    ∀ (n : Nat) (v : Int), 0 ≤ v → v < 2 ^ (8 * n) →
      bigintDeserialize (bigintSerializeGo v n) = v := by
  intro n
  induction n with
  | zero =>
    intro v h0 h1
    have : v = 0 := by
      rw [show 8 * 0 = 0 by ring, pow_zero] at h1
      omega
    simp [this, bigintSerializeGo, bigintDeserialize]
  | succ m ih =>
    intro v h0 h1
    have htd : v.tdiv 256 = v / 256 := Int.tdiv_eq_ediv h0 (by norm_num)
    have hp : (2 : Int) ^ (8 * (m + 1)) = 2 ^ (8 * m) * 256 := by
      rw [show 8 * (m + 1) = 8 * m + 8 by ring, pow_add]
      norm_num
    rw [hp] at h1
    have hihyp1 : 0 ≤ v.tdiv 256 := by rw [htd]; omega
    have hihyp2 : v.tdiv 256 < 2 ^ (8 * m) := by rw [htd]; omega
    have hb : ((bigintByte v : Nat) : Int) = v % 256 := toUint8_tmod v
    rw [bigintSerializeGo, bigintDeserialize_append, ih (v.tdiv 256) hihyp1 hihyp2,
      htd, hb]
    omega

lemma bigintByte_eq (x : Int) : bigintByte x = (x % 256).toNat := by
  unfold bigintByte toUint8
  have := Int.tmod_def x 256
  omega

/-- C4 (amended): the signed 64-bit scalar round-trips exactly on the
nonnegative representable values: for every integer `v` with `0 ≤ v < 2^63`,
`bigintSerialize v` is the big-endian eight-byte base-256 encoding of `v` and
`bigintDeserialize (bigintSerialize v) = v`; negative values do not
round-trip (see the counterexample). -/
theorem C4_bigint_roundTrip_amended (v : Int) (h0 : 0 ≤ v) (h1 : v < 2 ^ 63) :
    bigintSerialize v =
      [(v / 2 ^ 56 % 256).toNat, (v / 2 ^ 48 % 256).toNat, (v / 2 ^ 40 % 256).toNat,
       (v / 2 ^ 32 % 256).toNat, (v / 2 ^ 24 % 256).toNat, (v / 2 ^ 16 % 256).toNat,
       (v / 2 ^ 8 % 256).toNat, (v % 256).toNat] ∧
    bigintDeserialize (bigintSerialize v) = v := by
  have hround : bigintDeserialize (bigintSerialize v) = v := by
    unfold bigintSerialize
    refine bigintSerializeGo_roundTrip 8 v h0 ?_
    have : (2 : Int) ^ 63 < 2 ^ (8 * 8) := by norm_num
    omega
  refine ⟨?_, hround⟩
  have e1 : v.tdiv 256 = v / 2 ^ 8 := by
    rw [Int.tdiv_eq_ediv h0 (by norm_num)]
    omega
  have p1 : (0 : Int) ≤ v / 2 ^ 8 := by omega
  have e2 : (v.tdiv 256).tdiv 256 = v / 2 ^ 16 := by
    rw [e1, Int.tdiv_eq_ediv p1 (by norm_num)]
    omega
  have p2 : (0 : Int) ≤ v / 2 ^ 16 := by omega
  have e3 : ((v.tdiv 256).tdiv 256).tdiv 256 = v / 2 ^ 24 := by
    rw [e2, Int.tdiv_eq_ediv p2 (by norm_num)]
    omega
  have p3 : (0 : Int) ≤ v / 2 ^ 24 := by omega
  have e4 : (((v.tdiv 256).tdiv 256).tdiv 256).tdiv 256 = v / 2 ^ 32 := by
    rw [e3, Int.tdiv_eq_ediv p3 (by norm_num)]
    omega
  have p4 : (0 : Int) ≤ v / 2 ^ 32 := by omega
  have e5 : ((((v.tdiv 256).tdiv 256).tdiv 256).tdiv 256).tdiv 256 = v / 2 ^ 40 := by
    rw [e4, Int.tdiv_eq_ediv p4 (by norm_num)]
    omega
  have p5 : (0 : Int) ≤ v / 2 ^ 40 := by omega
  have e6 : (((((v.tdiv 256).tdiv 256).tdiv 256).tdiv 256).tdiv 256).tdiv 256 =
      v / 2 ^ 48 := by
    rw [e5, Int.tdiv_eq_ediv p5 (by norm_num)]
    omega
  have p6 : (0 : Int) ≤ v / 2 ^ 48 := by omega
  have e7 : ((((((v.tdiv 256).tdiv 256).tdiv 256).tdiv 256).tdiv 256).tdiv 256).tdiv 256 =
      v / 2 ^ 56 := by
    rw [e6, Int.tdiv_eq_ediv p6 (by norm_num)]
    omega
  show bigintSerializeGo v 8 = _
  simp only [bigintSerializeGo, List.nil_append, List.cons_append, List.append_nil]
  rw [e7, e6, e5, e4, e3, e2, e1]
  simp only [bigintByte_eq]

/-- Witness for C4 (amended) at `v = 5`. -/
theorem C4_bigint_roundTrip_amended_witness :
    (0 : Int) ≤ 5 ∧ (5 : Int) < 2 ^ 63 ∧
    (bigintSerialize 5 =
      [((5 : Int) / 2 ^ 56 % 256).toNat, ((5 : Int) / 2 ^ 48 % 256).toNat,
       ((5 : Int) / 2 ^ 40 % 256).toNat, ((5 : Int) / 2 ^ 32 % 256).toNat,
       ((5 : Int) / 2 ^ 24 % 256).toNat, ((5 : Int) / 2 ^ 16 % 256).toNat,
       ((5 : Int) / 2 ^ 8 % 256).toNat, ((5 : Int) % 256).toNat] ∧
     bigintDeserialize (bigintSerialize 5) = 5) :=
  ⟨by decide, by decide, C4_bigint_roundTrip_amended 5 (by decide) (by decide)⟩

/-- C5: the signed 32-bit scalar round-trips on every representable value,
including negative values: for `-2^31 ≤ v < 2^31`, `int32Serialize v` is the
big-endian four-byte two's-complement encoding (the base-256 digits of
`v mod 2^32`) and `int32Deserialize (int32Serialize v) = v`. -/
theorem C5_int32_roundTrip (v : Int) (h0 : -2 ^ 31 ≤ v) (h1 : v < 2 ^ 31) :
    int32Serialize v =
      [((v % 2 ^ 32) / 2 ^ 24 % 256).toNat, ((v % 2 ^ 32) / 2 ^ 16 % 256).toNat,
       ((v % 2 ^ 32) / 2 ^ 8 % 256).toNat, ((v % 2 ^ 32) % 256).toNat] ∧
    int32Deserialize (int32Serialize v) = v := by
  have hv32 : toInt32 v = v := by
    unfold toInt32
    omega
  constructor
  · unfold int32Serialize
    rw [hv32, Int.fdiv_eq_ediv _ (by norm_num), Int.fdiv_eq_ediv _ (by norm_num),
      Int.fdiv_eq_ediv _ (by norm_num)]
    unfold toUint8
    have hd24 := Int.tmod_def (v / 2 ^ 24) 256
    have hd16 := Int.tmod_def (v / 2 ^ 16) 256
    have hd8 := Int.tmod_def (v / 2 ^ 8) 256
    have hd0 := Int.tmod_def v 256
    simp only [List.cons.injEq, and_true]
    exact ⟨by omega, by omega, by omega, by omega⟩
  · unfold int32Serialize int32Deserialize
    rw [hv32]
    simp only [List.getD_cons_succ, List.getD_cons_zero]
    rw [Int.fdiv_eq_ediv _ (by norm_num), Int.fdiv_eq_ediv _ (by norm_num),
      Int.fdiv_eq_ediv _ (by norm_num), toUint8_tmod, toUint8_tmod, toUint8_tmod,
      toUint8_tmod]
    unfold toInt32
    omega

/-- Witness for C5 at `v = -1`. -/
theorem C5_int32_roundTrip_witness :
    -2 ^ 31 ≤ (-1 : Int) ∧ (-1 : Int) < 2 ^ 31 ∧
    (int32Serialize (-1) =
      [((((-1) : Int) % 2 ^ 32) / 2 ^ 24 % 256).toNat,
       ((((-1) : Int) % 2 ^ 32) / 2 ^ 16 % 256).toNat,
       ((((-1) : Int) % 2 ^ 32) / 2 ^ 8 % 256).toNat,
       ((((-1) : Int) % 2 ^ 32) % 256).toNat] ∧
     int32Deserialize (int32Serialize (-1)) = -1) :=
  ⟨by decide, by decide, C5_int32_roundTrip (-1) (by decide) (by decide)⟩

/-- C6 is false as stated: a negative bit width is truthy in JavaScript, so
`new CType("x", -1)` succeeds even though `-1 ≤ 0`; only a zero (falsy) width
is rejected. -/
theorem C6_ctype_counterexample :
    ctypeNew "x" (-1) = .ok ("x", -1) ∧ (-1 : Int) ≤ 0 :=
  ⟨rfl, by decide⟩

/-- C6 (amended): the `CType` constructor guard fails exactly when the name is
absent/empty or the declared bit width equals zero; a present name with any
nonzero width — positive or (contrary to the claim) negative — succeeds. -/
theorem C6_ctypeNew_amended (name : String) (size : Int) :
    (∃ e, ctypeNew name size = .error e) ↔ (name = "" ∨ size = 0) := by
  unfold ctypeNew
  by_cases h : name = "" ∨ size = 0
  · rw [if_pos h]
    exact ⟨fun _ => h, fun _ => ⟨_, rfl⟩⟩
  · rw [if_neg h]
    constructor
    · rintro ⟨e, he⟩
      exact Except.noConfusion he
    · intro hc
      exact absurd hc h

/-- Witness for C6 (amended): the empty name is rejected. -/
theorem C6_ctypeNew_amended_witness :
    ∃ e, ctypeNew "" 5 = .error e :=
  (C6_ctypeNew_amended "" 5).mpr (Or.inl rfl)

/-- C7: for every `PtrArray` and every index outside `[0, length)` (negative
or too large), `get` returns no value and `set` returns the array unchanged —
buffer bytes, length and element type untouched. -/
theorem C7_ptrArray_bounds {α : Type} (arr : PtrArray α) (i : Int) (item : α)
    (h : i < 0 ∨ (arr.length : Int) ≤ i) :
    arr.get i = none ∧ arr.set i item = arr := by
  unfold PtrArray.get PtrArray.set
  have hc : i < 0 ∨ ¬(i < (arr.length : Int)) := by omega
  rw [if_pos hc, if_pos hc]
  exact ⟨rfl, rfl⟩

/-- Witness for C7 at a two-element byte array and index `-1`. -/
theorem C7_ptrArray_bounds_witness :
    ((-1 : Int) < 0 ∨
      (((⟨2, ⟨8, fun n => [n % 256], fun b => b.getD 0 0⟩, [0, 0]⟩ :
        PtrArray Nat).length : Nat) : Int) ≤ -1) ∧
    (PtrArray.get
        (⟨2, ⟨8, fun n => [n % 256], fun b => b.getD 0 0⟩, [0, 0]⟩ : PtrArray Nat)
        (-1) = none ∧
      PtrArray.set
        (⟨2, ⟨8, fun n => [n % 256], fun b => b.getD 0 0⟩, [0, 0]⟩ : PtrArray Nat)
        (-1) 5 =
      (⟨2, ⟨8, fun n => [n % 256], fun b => b.getD 0 0⟩, [0, 0]⟩ : PtrArray Nat)) :=
  ⟨Or.inl (by decide),
    C7_ptrArray_bounds
      (⟨2, ⟨8, fun n => [n % 256], fun b => b.getD 0 0⟩, [0, 0]⟩ : PtrArray Nat)
      (-1) 5 (Or.inl (by decide))⟩

/-- C8: with expected capacity `K = ceil(length·size/8)`, `setBuffer` with no
argument installs a fresh all-zero buffer of `K` bytes; with padding, a
longer input is truncated to its first `K` bytes and a shorter one is
extended with zero bytes, always yielding exactly `K` bytes; without padding,
a shorter input is rejected. -/
theorem C8_setBuffer_spec {α : Type} (arr : PtrArray α) (b : List Nat) :
    (PtrArray.setBuffer arr none true =
      .ok { arr with buffer :=
        List.replicate ((arr.length * arr.type.size + 7) / 8) 0 }) ∧
    (PtrArray.setBuffer arr (some b) true =
      .ok { arr with buffer :=
        (if (arr.length * arr.type.size + 7) / 8 < b.length then
          b.take ((arr.length * arr.type.size + 7) / 8)
        else
          b ++ List.replicate ((arr.length * arr.type.size + 7) / 8 - b.length) 0) }) ∧
    ((PtrArray.setBuffer arr (some b) true).map (fun r => r.buffer.length) =
      .ok ((arr.length * arr.type.size + 7) / 8)) ∧
    (b.length < (arr.length * arr.type.size + 7) / 8 →
      ∃ e, PtrArray.setBuffer arr (some b) false = .error e) := by
  refine ⟨rfl, ?_, ?_, ?_⟩
  · show (if (arr.length * arr.type.size + 7) / 8 < b.length then _ else _) = _
    by_cases h1 : (arr.length * arr.type.size + 7) / 8 < b.length
    · rw [if_pos h1, if_pos h1]
    · rw [if_neg h1, if_neg h1]
      by_cases h2 : b.length < (arr.length * arr.type.size + 7) / 8
      · rw [if_pos h2]
      · rw [if_neg h2]
        have : (arr.length * arr.type.size + 7) / 8 - b.length = 0 := by omega
        rw [this, List.replicate_zero, List.append_nil]
  · show ((if (arr.length * arr.type.size + 7) / 8 < b.length then _ else _) :
      Except String (PtrArray α)).map _ = _
    by_cases h1 : (arr.length * arr.type.size + 7) / 8 < b.length
    · rw [if_pos h1]
      simp only [Except.map, List.length_take]
      congr 1
      omega
    · rw [if_neg h1]
      by_cases h2 : b.length < (arr.length * arr.type.size + 7) / 8
      · rw [if_pos h2]
        simp only [Except.map, List.length_append, List.length_replicate]
        congr 1
        omega
      · rw [if_neg h2]
        simp only [Except.map]
        congr 1
        omega
  · intro hshort
    refine ⟨"Given buffer was not of expected length. Expected length " ++
        toString ((arr.length * arr.type.size + 7) / 8) ++ ", got " ++
        toString b.length, ?_⟩
    show (if b.length < (arr.length * arr.type.size + 7) / 8 then
      (Except.error ("Given buffer was not of expected length. Expected length " ++
        toString ((arr.length * arr.type.size + 7) / 8) ++ ", got " ++
        toString b.length) : Except String (PtrArray α))
      else .ok { arr with buffer := b }) = _
    rw [if_pos hshort]

/-- Witness for C8 at a 9-bit array (capacity 2 bytes) and the 1-byte input
`[9]`. -/
theorem C8_setBuffer_spec_witness :
    ([9] : List Nat).length <
      ((⟨3, ⟨3, fun n => [n], fun b => b.getD 0 0⟩, [0, 0]⟩ :
        PtrArray Nat).length *
        (⟨3, ⟨3, fun n => [n], fun b => b.getD 0 0⟩, [0, 0]⟩ :
          PtrArray Nat).type.size + 7) / 8 ∧
    (∃ e, PtrArray.setBuffer
      (⟨3, ⟨3, fun n => [n], fun b => b.getD 0 0⟩, [0, 0]⟩ : PtrArray Nat)
      (some [9]) false = .error e) :=
  ⟨by decide,
    (C8_setBuffer_spec
      (⟨3, ⟨3, fun n => [n], fun b => b.getD 0 0⟩, [0, 0]⟩ : PtrArray Nat)
      [9]).2.2.2 (by decide)⟩

end CStyle
